import Mathlib

set_option linter.unusedVariables false

/-!
Verification of the Riftlands bot (src/main.py) against its design document.

Two parts of the program are embedded directly from the source:
* the startup sync `RiftlandsBot.setup_hook` (src/main.py lines 246-248), and
* the dice roller `roll_expr` together with `DICE_RE` (src/main.py lines 70-104).

The design document's command-registry reconciliation subsystem (Scope
Resolver, Two-Phase Reconciler, Sync Report) does not appear in this revision
of src/main.py — `setup_hook` performs only a single bare global sync — so the
reconciler is modelled from the spec (each such definition is marked
`Modelled from the spec:`), and the claims about it are settled against that
model.
-/

/-! ## Data model of the reconciliation subsystem (from the spec, section 3) -/

/-- Modelled from the spec: a tagged scope variant, `Guild(id)` or `Global`
(spec §3).  Absent from src/main.py. -/
inductive Scope where
  | guild (id : Int)
  | global
deriving DecidableEq

/-- Modelled from the spec: one parameter of a command's parameter schema
(spec §3, contents left abstract there). -/
structure ParameterSpec where
  pname : String
deriving DecidableEq

/-- Modelled from the spec: a locally declared command definition (spec §3). -/
structure CommandDefinition where
  name : String
  description : String
  parameters : List ParameterSpec
deriving DecidableEq

/-- Modelled from the spec: the remote platform's observed state for one
command (spec §3); `remote_id` is opaque, modelled as a number. -/
structure CommandRecord where
  name : String
  description : String
  remote_id : Nat
deriving DecidableEq

/-- Modelled from the spec: the generic failure condition of a remote client
call (spec §6, §7). -/
inductive RemoteError where
  | remoteUnavailable
deriving DecidableEq

/-- Modelled from the spec: the abstract Remote Command Client (spec §2, §6).
Each call may fail with `RemoteError` and threads an abstract remote/client
state `σ`, so that successive calls may observe different remote behaviour. -/
structure Client (σ : Type) where
  fetch : Scope → σ → Except RemoteError (List CommandRecord) × σ
  replace : Scope → List CommandDefinition → σ → Except RemoteError (List CommandRecord) × σ
  clear : Scope → σ → Except RemoteError Unit × σ

/-- Observable events of one reconciliation run, used to state the temporal
claims (ordering of clear, propagation wait, pushes).  A `replaceCall` event
records the scope pushed to and the outcome of the call (`none` means the
call failed with `RemoteUnavailable`). -/
inductive Event where
  | clearCall (sc : Scope) (ok : Bool)
  | wait (d : Nat)
  | backoff (d : Nat)
  | replaceCall (sc : Scope) (result : Option (List CommandRecord))
deriving DecidableEq

/-- Modelled from the spec: the structured outcome of a reconciliation run
(spec §3). -/
structure SyncReport where
  final_scope : Scope
  final_records : List CommandRecord
  attempts : Nat
  discrepancies : Finset String
deriving DecidableEq

/-- The name set of a list of declared commands. -/
def defNames (l : List CommandDefinition) : Finset String :=
  (l.map CommandDefinition.name).toFinset

/-- The name set of a list of remote command records. -/
def recNames (l : List CommandRecord) : Finset String :=
  (l.map CommandRecord.name).toFinset

/-- Names expected but missing, or present but unexpected (spec §3,
`SyncReport.discrepancies`). -/
def nameDiff (expected got : Finset String) : Finset String :=
  (expected \ got) ∪ (got \ expected)

def isGuildScope : Scope → Bool
  | Scope.guild _ => true
  | Scope.global => false

/-- Modelled from the spec: the fixed inter-retry backoff, design default 3
time units (spec §4.2 step 3d). -/
def retryBackoff : Nat := 3

/-! ## Scope Resolver (spec §4.1) -/

/-- Modelled from the spec: the Scope Resolver (spec §4.1), absent from
src/main.py.  Given an optional configured guild identifier it returns the
ordered preference list of scopes, most specific first.  It is a pure total
function: no error conditions, no side effects. -/
def resolveScopes (guildId : Option Int) : List Scope :=
  match guildId with
  | some g => [Scope.guild g, Scope.global]
  | none => [Scope.global]

/-! ## Two-Phase Reconciler (spec §4.2) -/

/-- Modelled from the spec: the scopes cleared by the clear phase — the
global scope unconditionally, and the guild scope if present (spec §4.2
step 1). -/
def scopesToClear (scopes : List Scope) : List Scope :=
  scopes.filter isGuildScope ++ [Scope.global]

/-- Modelled from the spec: the clear phase.  `clear` is invoked on each
scope in turn; a failed clear is logged (recorded as `ok := false`) but does
not abort the run (spec §4.2 step 1). -/
def clearPhase {σ : Type} (c : Client σ) : List Scope → σ → σ × List Event
  | [], s => (s, [])
  | sc :: rest, s =>
      let r := c.clear sc s
      let res := clearPhase c rest r.2
      (res.1,
       Event.clearCall sc (match r.1 with
         | Except.ok _ => true
         | Except.error _ => false) :: res.2)

/-- Modelled from the spec: the retry/fallback step (spec §4.2 step 3d).
If this was the first failed attempt (`first`) and the current scope is a
guild scope, permanently fall back to the next scope in the list; otherwise
keep the current scope. -/
def fallbackStep (sc : Scope) (rest : List Scope) (first : Bool) : Scope × List Scope :=
  if first && isGuildScope sc then
    match rest with
    | [] => (sc, [])
    | sc2 :: rest2 => (sc2, rest2)
  else (sc, rest)

/-- Modelled from the spec: the attempt loop (spec §4.2 steps 3-4).  Each
iteration calls `replace(scope, declared)`, verifies the returned name set
against the declared name set (recording discrepancies), succeeds when the
call returned a non-empty record list, and otherwise backs off and retries,
falling back to the next scope after the first failed attempt on a guild
scope.  A `RemoteUnavailable` failure of `replace` is a failed attempt with
no record set to verify.  On exhaustion the report carries the last
(possibly empty) attempt result. -/
def attemptLoop {σ : Type} (c : Client σ) (declared : List CommandDefinition) :
    Scope → List Scope → Nat → Nat → Finset String → σ → SyncReport × List Event × σ
  | sc, _rest, 0, used, discs, s =>
      (⟨sc, [], used, discs⟩, [], s)
  | sc, rest, fuel + 1, used, discs, s =>
      match c.replace sc declared s with
      | (Except.ok recs, s1) =>
          let expected := defNames declared
          let got := recNames recs
          let discs1 := if expected ≠ ∅ ∧ expected ≠ got then discs ∪ nameDiff expected got else discs
          if 0 < recs.length then
            (⟨sc, recs, used + 1, discs1⟩, [Event.replaceCall sc (some recs)], s1)
          else
            match fuel with
            | 0 => (⟨sc, recs, used + 1, discs1⟩, [Event.replaceCall sc (some recs)], s1)
            | fuel' + 1 =>
                let fb := fallbackStep sc rest (used == 0)
                let res := attemptLoop c declared fb.1 fb.2 (fuel' + 1) (used + 1) discs1 s1
                (res.1, Event.replaceCall sc (some recs) :: Event.backoff retryBackoff :: res.2.1, res.2.2)
      | (Except.error _, s1) =>
          match fuel with
          | 0 => (⟨sc, [], used + 1, discs⟩, [Event.replaceCall sc none], s1)
          | fuel' + 1 =>
              let fb := fallbackStep sc rest (used == 0)
              let res := attemptLoop c declared fb.1 fb.2 (fuel' + 1) (used + 1) discs s1
              (res.1, Event.replaceCall sc none :: Event.backoff retryBackoff :: res.2.1, res.2.2)

/-- Modelled from the spec: the Two-Phase Reconciler's `reconcile` operation
(spec §4.2): clear phase, propagation wait, then the attempt loop starting
at the first (most specific) scope.  Returns the SyncReport, the event trace
of the run and the final client state. -/
def reconcile {σ : Type} (c : Client σ) (declared : List CommandDefinition)
    (scopes : List Scope) (propagation_delay max_attempts : Nat) (s : σ) :
    SyncReport × List Event × σ :=
  let cp := clearPhase c (scopesToClear scopes) s
  match scopes with
  | [] => (⟨Scope.global, [], 0, ∅⟩, cp.2 ++ [Event.wait propagation_delay], cp.1)
  | sc :: rest =>
      let res := attemptLoop c declared sc rest max_attempts 0 ∅ cp.1
      (res.1, cp.2 ++ Event.wait propagation_delay :: res.2.1, res.2.2)

/-- The scopes and outcomes of the push attempts of a trace, in order. -/
def replaceEvents (evs : List Event) : List (Scope × Option (List CommandRecord)) :=
  evs.filterMap (fun e => match e with
    | Event.replaceCall sc r => some (sc, r)
    | _ => none)

/-- The number of push attempts (replace invocations) recorded in a trace. -/
def countReplace (evs : List Event) : Nat :=
  (replaceEvents evs).length

/-- Every recorded push attempt targets the global scope. -/
def allGlobal (l : List (Scope × Option (List CommandRecord))) : Prop :=
  ∀ p ∈ l, p.1 = Scope.global

/-- The remote client honours the `replace` contract for the declaration set
`declared`: every `replace(scope, declared)` call succeeds and returns
records whose name set is exactly the declared name set. -/
def HonoursReplace {σ : Type} (c : Client σ) (declared : List CommandDefinition) : Prop :=
  ∀ sc s, ∃ recs s2,
    c.replace sc declared s = (Except.ok recs, s2) ∧ recNames recs = defNames declared

/-- Every `replace` call fails with `RemoteUnavailable`. -/
def AllFailReplace {σ : Type} (c : Client σ) : Prop :=
  ∀ sc defs s, (c.replace sc defs s).1 = Except.error RemoteError.remoteUnavailable

/-! ## Startup sync: `RiftlandsBot.setup_hook` (src/main.py lines 246-248) -/

/-- Observable events of the bot's startup hook.  The constructors for clear
calls and waits exist so that their absence from `setup_hook`'s trace is
statable. -/
inductive BotEvent where
  | syncCall (guild : Option Int)
  | clearCall (sc : Scope)
  | waitEvent (d : Nat)
  | printLine (msg : String)
deriving DecidableEq

/-- The command tree of the third-party bot framework, as consumed by
`setup_hook`: `sync` takes an optional guild argument (`none` = global
sync) and returns the synced command records, threading an abstract remote
state. -/
structure TreeClient (σ : Type) where
  sync : Option Int → σ → List CommandRecord × σ

/-- Embeds `RiftlandsBot.setup_hook` (src/main.py lines 246-248):
`cmds = await self.tree.sync()` — a single sync call with no guild
argument — followed by
`print(f"✅ Synced {len(cmds)} commands globally.")`. -/
def setup_hook {σ : Type} (tree : TreeClient σ) (s : σ) : σ × List BotEvent :=
  let r := tree.sync none s
  (r.2,
   [BotEvent.syncCall none,
    BotEvent.printLine ("✅ Synced " ++ toString r.1.length ++ " commands globally.")])

def isSyncEvent : BotEvent → Bool
  | BotEvent.syncCall _ => true
  | _ => false

def isClearOrWaitEvent : BotEvent → Bool
  | BotEvent.clearCall _ => true
  | BotEvent.waitEvent _ => true
  | _ => false

/-! ## Dice roller: `DICE_RE` and `roll_expr` (src/main.py lines 70-104) -/

/-- The ASCII digits; models the `\d` character class of `DICE_RE` (Python
`\d` also matches non-ASCII decimal digits, which no claim exercises). -/
def isDig (c : Char) : Bool :=
  c == '0' || c == '1' || c == '2' || c == '3' || c == '4' ||
  c == '5' || c == '6' || c == '7' || c == '8' || c == '9'

/-- The numeric value of a decimal digit string, as computed by Python's
`int` on a digit-only string. -/
def digitsVal (cs : List Char) : Nat :=
  cs.foldl (fun a c => 10 * a + (c.toNat - 48)) 0

/-- Embeds `DICE_RE.fullmatch` (src/main.py line 70):
`(?:(\d+))?d(\d+)([+-]\d+)?$` with `re.IGNORECASE`, applied by `fullmatch`
so the whole token must match.  Returns `(count, sides, mod)` where a missing
count group defaults to 1 and a missing modifier group to 0 (src/main.py
lines 87-89: `int(m.group(1) or '1')`, `int(m.group(3) or '0')`). -/
def diceMatch (cs : List Char) : Option (Nat × Nat × Int) :=
  let cnt := cs.takeWhile isDig
  match cs.dropWhile isDig with
  | [] => none
  | d :: rest2 =>
      if d == 'd' || d == 'D' then
        let sds := rest2.takeWhile isDig
        if sds.isEmpty then none
        else
          let count := if cnt.isEmpty then 1 else digitsVal cnt
          let sides := digitsVal sds
          match rest2.dropWhile isDig with
          | [] => some (count, sides, 0)
          | sign :: mds =>
              if (sign == '+' || sign == '-') && !mds.isEmpty && mds.all isDig then
                some (count, sides,
                  if sign == '-' then -(digitsVal mds : Int) else (digitsVal mds : Int))
              else none
      else none

/-- Python `str.strip()`: drop leading and trailing whitespace. -/
def pyStrip (cs : List Char) : List Char :=
  ((cs.dropWhile Char.isWhitespace).reverse.dropWhile Char.isWhitespace).reverse

/-- Embeds `expr.strip().replace(" ", "")` (src/main.py line 73). -/
def cleanExpr (cs : List Char) : List Char :=
  (pyStrip cs).filter (fun c => c ≠ ' ')

/-- Embeds `re.split(r"(?=\+)", token)` (src/main.py line 80): the string is
split before every `'+'`, each `'+'` starting a new token. -/
def splitPlusAux (cur : List Char) : List Char → List (List Char)
  | [] => [cur.reverse]
  | c :: rest =>
      if c == '+' then cur.reverse :: splitPlusAux [c] rest
      else splitPlusAux (c :: cur) rest

/-- Embeds Python `int(t)` on a token (src/main.py line 98): optional
surrounding whitespace, an optional sign, then at least one digit
(`none` models the `ValueError` caught by the bare `except`; underscore
digit grouping is not modelled, no claim exercises it). -/
def pyInt (cs : List Char) : Option Int :=
  match pyStrip cs with
  | [] => none
  | c :: rest =>
      if c == '+' then
        if !rest.isEmpty && rest.all isDig then some (digitsVal rest) else none
      else if c == '-' then
        if !rest.isEmpty && rest.all isDig then some (-(digitsVal rest : Int)) else none
      else
        if (c :: rest).all isDig then some (digitsVal (c :: rest)) else none

/-- Embeds `[random.randint(1, sides) for _ in range(count)]` (src/main.py
line 90).  `rng i sides` is the outcome of the `i`-th `randint(1, sides)`
call of the run; the roll index is threaded through the whole expression. -/
def doRolls (rng : Nat → Nat → Nat) : Nat → Nat → Nat → List Nat × Nat
  | idx, 0, _sides => ([], idx)
  | idx, count + 1, sides =>
      let r := rng idx sides
      let res := doRolls rng (idx + 1) count sides
      (r :: res.1, res.2)

/-- `random.randint(1, 0)` raises `ValueError`; this is `roll_expr`'s only
uncaught exception source (src/main.py line 90 when `sides = 0`). -/
inductive PyError where
  | valueError
deriving DecidableEq

/-- Python's `str` of a list of ints, e.g. `[3, 5]` (used by the f-string
`f"{label}={rolls}{modtxt} → {subtotal}"`, src/main.py line 95). -/
def showRolls (rs : List Nat) : String :=
  "[" ++ String.intercalate ", " (rs.map toString) ++ "]"

/-- Python `f"{mod:+}"` when `mod` is non-zero, else the empty string
(src/main.py line 94). -/
def modTxt (m : Int) : String :=
  if m = 0 then "" else if 0 < m then "+" ++ toString m else toString m

/-- The dice label: `f"{count}d{sides}"` if `count != 1` else `f"d{sides}"`
(src/main.py line 93). -/
def diceLabel (count sides : Nat) : String :=
  if count ≠ 1 then toString count ++ "d" ++ toString sides
  else "d" ++ toString sides

/-- Embeds the token loop of `roll_expr` (src/main.py lines 81-102):
empty tokens are skipped, each token is stripped of leading `'+'`, matched
against `DICE_RE`, rolled if it is a dice term, otherwise parsed as an
integer, with unparsable tokens contributing `"?{t}"` to the breakdown and
nothing to the total. -/
def processTokens (rng : Nat → Nat → Nat) :
    List (List Char) → Nat → Int → List String → Except PyError (Int × List String × Nat)
  | [], idx, total, parts => Except.ok (total, parts, idx)
  | t :: ts, idx, total, parts =>
      if t.isEmpty then processTokens rng ts idx total parts
      else
        let t1 := t.dropWhile (fun c => c == '+')
        match diceMatch t1 with
        | some (count, sides, mod) =>
            if 0 < count ∧ sides = 0 then Except.error PyError.valueError
            else
              let rr := doRolls rng idx count sides
              let subtotal : Int := (rr.1.sum : Int) + mod
              processTokens rng ts rr.2 (total + subtotal)
                (parts ++ [diceLabel count sides ++ "=" ++ showRolls rr.1 ++ modTxt mod
                           ++ " → " ++ toString subtotal])
        | none =>
            match pyInt t1 with
            | some v => processTokens rng ts idx (total + v) (parts ++ [toString v])
            | none => processTokens rng ts idx total (parts ++ ["?" ++ String.mk t1])

structure RollResult where
  total : Int
  breakdown : String
deriving DecidableEq

/-- Embeds `roll_expr` (src/main.py lines 72-104): strip spaces, return
total 0 for the empty expression, otherwise prepend `'+'`, split before
every `'+'` and process the tokens.  `rng` supplies the outcomes of the
successive `random.randint(1, sides)` calls. -/
def roll_expr (rng : Nat → Nat → Nat) (expr : String) : Except PyError RollResult :=
  let cs := cleanExpr expr.data
  if cs.isEmpty then Except.ok ⟨0, "0"⟩
  else
    match processTokens rng (splitPlusAux [] ('+' :: cs)) 0 0 [] with
    | Except.error e => Except.error e
    | Except.ok (total, parts, _) =>
        Except.ok ⟨total,
          if parts.isEmpty then toString total else String.intercalate " + " parts⟩

/-- `rng` is a valid model of `random.randint(1, ·)`: whenever `1 ≤ sides`,
every outcome lies in `[1, sides]`. -/
def ValidRng (rng : Nat → Nat → Nat) : Prop :=
  ∀ i s, 1 ≤ s → 1 ≤ rng i s ∧ rng i s ≤ s

def exceptOk : Except PyError RollResult → Bool
  | Except.ok _ => true
  | Except.error _ => false

def resTotal : Except PyError RollResult → Int
  | Except.ok r => r.total
  | Except.error _ => 0

/-! ## Concrete instances used by witnesses and counterexamples -/

def defA : CommandDefinition := ⟨"a", "", []⟩
def defB : CommandDefinition := ⟨"b", "", []⟩
def recA : CommandRecord := ⟨"a", "", 0⟩

/-- The record the remote produces for a pushed definition when it honours
the `replace` contract. -/
def toRec (d : CommandDefinition) : CommandRecord := ⟨d.name, d.description, 0⟩

/-- A remote whose `replace` always reports the single record `recA`,
regardless of what was pushed. -/
def badClient : Client Unit where
  fetch := fun _ s => (Except.ok [], s)
  replace := fun _ _ s => (Except.ok [recA], s)
  clear := fun _ s => (Except.ok (), s)

/-- A remote whose first `replace` call returns no records and whose later
calls return `[recA]`; the state counts the `replace` calls made. -/
def stepClient : Client Nat where
  fetch := fun _ s => (Except.ok [], s)
  replace := fun _ _ s => (Except.ok (if s = 0 then [] else [recA]), s + 1)
  clear := fun _ s => (Except.ok (), s)

/-- A remote on which every call fails with `RemoteUnavailable`. -/
def failClient : Client Unit where
  fetch := fun _ s => (Except.error RemoteError.remoteUnavailable, s)
  replace := fun _ _ s => (Except.error RemoteError.remoteUnavailable, s)
  clear := fun _ s => (Except.error RemoteError.remoteUnavailable, s)

/-- A remote honouring the `replace` contract: it reports exactly one record
per pushed definition. -/
def honestClient : Client Unit where
  fetch := fun _ s => (Except.ok [], s)
  replace := fun _ defs s => (Except.ok (defs.map toRec), s)
  clear := fun _ s => (Except.ok (), s)

/-- A die that always comes up 1. -/
def rngOne : Nat → Nat → Nat := fun _ _ => 1

/-! ## Helper lemmas about the reconciler -/

/-- Unfolding of one successful-call step of the attempt loop. -/
theorem attemptLoop_succ_eq {σ : Type} (c : Client σ) (declared : List CommandDefinition)
    (sc : Scope) (rest : List Scope) (n used : Nat) (discs : Finset String) (s : σ)
    (recs : List CommandRecord) (s1 : σ)
    (h : c.replace sc declared s = (Except.ok recs, s1)) :
    attemptLoop c declared sc rest (n + 1) used discs s =
      (let discs1 := if defNames declared ≠ ∅ ∧ defNames declared ≠ recNames recs
                     then discs ∪ nameDiff (defNames declared) (recNames recs) else discs
       if 0 < recs.length then
         (⟨sc, recs, used + 1, discs1⟩, [Event.replaceCall sc (some recs)], s1)
       else
         match n with
         | 0 => (⟨sc, recs, used + 1, discs1⟩, [Event.replaceCall sc (some recs)], s1)
         | fuel' + 1 =>
             let fb := fallbackStep sc rest (used == 0)
             let res := attemptLoop c declared fb.1 fb.2 (fuel' + 1) (used + 1) discs1 s1
             (res.1, Event.replaceCall sc (some recs) :: Event.backoff retryBackoff :: res.2.1, res.2.2)) := by
  rw [attemptLoop]
  split
  next recs2 s2 heq =>
    rw [h] at heq
    cases heq
    rfl
  next e s2 heq =>
    rw [h] at heq
    cases heq

/-- Unfolding of one failed-call step of the attempt loop. -/
theorem attemptLoop_succ_err {σ : Type} (c : Client σ) (declared : List CommandDefinition)
    (sc : Scope) (rest : List Scope) (n used : Nat) (discs : Finset String) (s : σ)
    (e : RemoteError) (s1 : σ)
    (h : c.replace sc declared s = (Except.error e, s1)) :
    attemptLoop c declared sc rest (n + 1) used discs s =
      (match n with
       | 0 => (⟨sc, [], used + 1, discs⟩, [Event.replaceCall sc none], s1)
       | fuel' + 1 =>
           let fb := fallbackStep sc rest (used == 0)
           let res := attemptLoop c declared fb.1 fb.2 (fuel' + 1) (used + 1) discs s1
           (res.1, Event.replaceCall sc none :: Event.backoff retryBackoff :: res.2.1, res.2.2)) := by
  rw [attemptLoop]
  split
  next recs2 s2 heq =>
    rw [h] at heq
    cases heq
  next e2 s2 heq =>
    rw [h] at heq
    cases heq
    rfl

theorem replaceEvents_cons_replace (sc : Scope) (r : Option (List CommandRecord)) (evs : List Event) :
    replaceEvents (Event.replaceCall sc r :: evs) = (sc, r) :: replaceEvents evs := rfl

theorem replaceEvents_cons_backoff (d : Nat) (evs : List Event) :
    replaceEvents (Event.backoff d :: evs) = replaceEvents evs := rfl

theorem replaceEvents_append (a b : List Event) :
    replaceEvents (a ++ b) = replaceEvents a ++ replaceEvents b := by
  simp [replaceEvents, List.filterMap_append]

/-- The attempt loop makes at most `fuel` push attempts. -/
theorem attemptLoop_countReplace_le {σ : Type} (c : Client σ) (declared : List CommandDefinition) :
    ∀ (fuel : Nat) (sc : Scope) (rest : List Scope) (used : Nat) (discs : Finset String) (s : σ),
    countReplace (attemptLoop c declared sc rest fuel used discs s).2.1 ≤ fuel := by
  intro fuel
  induction fuel with
  | zero => intro sc rest used discs s; simp [attemptLoop, countReplace, replaceEvents]
  | succ n ih =>
      intro sc rest used discs s
      rcases hr : c.replace sc declared s with ⟨res, s1⟩
      rcases res with e | recs
      · rw [attemptLoop_succ_err c declared sc rest n used discs s e s1 hr]
        cases n with
        | zero => simp [countReplace, replaceEvents]
        | succ m =>
            simp only [countReplace, replaceEvents_cons_replace, replaceEvents_cons_backoff,
              List.length_cons]
            exact Nat.succ_le_succ (ih _ _ _ _ _)
      · rw [attemptLoop_succ_eq c declared sc rest n used discs s recs s1 hr]
        by_cases hlen : 0 < recs.length
        · simp [hlen, countReplace, replaceEvents]
        · rw [if_neg hlen]
          cases n with
          | zero => simp [countReplace, replaceEvents]
          | succ m =>
              simp only [countReplace, replaceEvents_cons_replace, replaceEvents_cons_backoff,
                List.length_cons]
              exact Nat.succ_le_succ (ih _ _ _ _ _)

/-- The clear phase emits clear events only. -/
theorem clearPhase_events_clear {σ : Type} (c : Client σ) :
    ∀ (scs : List Scope) (s : σ) (e : Event), e ∈ (clearPhase c scs s).2 →
      ∃ sc ok, e = Event.clearCall sc ok := by
  intro scs
  induction scs with
  | nil => intro s e he; simp [clearPhase] at he
  | cons sc rest ih =>
      intro s e he
      simp only [clearPhase, List.mem_cons] at he
      rcases he with h | h
      · exact ⟨sc, _, h⟩
      · exact ih _ e h

/-- The clear phase emits a clear event for every scope it is given. -/
theorem clearPhase_covers {σ : Type} (c : Client σ) :
    ∀ (scs : List Scope) (s : σ) (sc : Scope), sc ∈ scs →
      ∃ ok, Event.clearCall sc ok ∈ (clearPhase c scs s).2 := by
  intro scs
  induction scs with
  | nil => intro s sc h; simp at h
  | cons sc0 rest ih =>
      intro s sc h
      rcases List.mem_cons.mp h with h | h
      · subst h; exact ⟨_, List.mem_cons_self _ _⟩
      · rcases ih _ sc h with ⟨ok, hok⟩
        exact ⟨ok, List.mem_cons_of_mem _ hok⟩

theorem fallbackStep_fst (sc : Scope) (rest : List Scope) (b : Bool) :
    (fallbackStep sc rest b).1 = sc ∨ (fallbackStep sc rest b).1 ∈ rest := by
  unfold fallbackStep
  by_cases hb : (b && isGuildScope sc) = true
  · rw [if_pos hb]
    cases rest with
    | nil => exact Or.inl rfl
    | cons sc2 rest2 => exact Or.inr (List.mem_cons_self _ _)
  · rw [if_neg hb]; exact Or.inl rfl

theorem fallbackStep_snd (sc : Scope) (rest : List Scope) (b : Bool) :
    ∀ x ∈ (fallbackStep sc rest b).2, x ∈ rest := by
  unfold fallbackStep
  by_cases hb : (b && isGuildScope sc) = true
  · rw [if_pos hb]
    cases rest with
    | nil => intro x hx; simp at hx
    | cons sc2 rest2 => intro x hx; exact List.mem_cons_of_mem _ hx
  · rw [if_neg hb]; intro x hx; exact hx

/-- Every scope pushed to by the attempt loop is the current scope or one of
the fallback scopes. -/
theorem attemptLoop_push_scopes {σ : Type} (c : Client σ) (declared : List CommandDefinition) :
    ∀ (fuel : Nat) (sc : Scope) (rest : List Scope) (used : Nat) (discs : Finset String) (s : σ)
      (sc' : Scope) (r : Option (List CommandRecord)),
      Event.replaceCall sc' r ∈ (attemptLoop c declared sc rest fuel used discs s).2.1 →
      sc' = sc ∨ sc' ∈ rest := by
  intro fuel
  induction fuel with
  | zero => intro sc rest used discs s sc' r h; simp [attemptLoop] at h
  | succ n ih =>
      intro sc rest used discs s sc' r h
      rcases hr : c.replace sc declared s with ⟨res, s1⟩
      rcases res with e | recs
      · rw [attemptLoop_succ_err c declared sc rest n used discs s e s1 hr] at h
        cases n with
        | zero =>
            simp only [List.mem_singleton] at h
            cases h
            exact Or.inl rfl
        | succ m =>
            simp only [List.mem_cons] at h
            rcases h with h | h | h
            · cases h; exact Or.inl rfl
            · cases h
            · rcases ih _ _ _ _ _ _ _ h with h2 | h2
              · rcases fallbackStep_fst sc rest (used == 0) with h3 | h3
                · exact Or.inl (h2.trans h3)
                · exact Or.inr (h2 ▸ h3)
              · exact Or.inr (fallbackStep_snd sc rest (used == 0) _ h2)
      · rw [attemptLoop_succ_eq c declared sc rest n used discs s recs s1 hr] at h
        by_cases hlen : 0 < recs.length
        · simp only [hlen, if_true] at h
          simp only [List.mem_singleton] at h
          cases h
          exact Or.inl rfl
        · rw [if_neg hlen] at h
          cases n with
          | zero =>
              simp only [List.mem_singleton] at h
              cases h
              exact Or.inl rfl
          | succ m =>
              simp only [List.mem_cons] at h
              rcases h with h | h | h
              · cases h; exact Or.inl rfl
              · cases h
              · rcases ih _ _ _ _ _ _ _ h with h2 | h2
                · rcases fallbackStep_fst sc rest (used == 0) with h3 | h3
                  · exact Or.inl (h2.trans h3)
                  · exact Or.inr (h2 ▸ h3)
                · exact Or.inr (fallbackStep_snd sc rest (used == 0) _ h2)

theorem mem_scopesToClear (scopes : List Scope) (sc : Scope) (h : sc ∈ scopes ∨ sc = Scope.global) :
    sc ∈ scopesToClear scopes := by
  unfold scopesToClear
  cases sc with
  | guild g =>
      rcases h with h | h
      · exact List.mem_append_left _ (List.mem_filter.mpr ⟨h, rfl⟩)
      · cases h
  | global => exact List.mem_append_right _ (List.mem_singleton.mpr rfl)

theorem replaceEvents_clearPhase {σ : Type} (c : Client σ) :
    ∀ (scs : List Scope) (s : σ), replaceEvents (clearPhase c scs s).2 = [] := by
  intro scs
  induction scs with
  | nil => intro s; rfl
  | cons sc rest ih => intro s; simp only [clearPhase, replaceEvents, List.filterMap_cons]; exact ih _

/-- The push attempts of a run are exactly the push attempts of its attempt
loop: the clear phase and the propagation wait contribute none. -/
theorem reconcile_replaceEvents {σ : Type} (c : Client σ) (declared : List CommandDefinition)
    (sc0 : Scope) (rest : List Scope) (delay m : Nat) (s : σ) :
    replaceEvents (reconcile c declared (sc0 :: rest) delay m s).2.1 =
      replaceEvents (attemptLoop c declared sc0 rest m 0 ∅
        (clearPhase c (scopesToClear (sc0 :: rest)) s).1).2.1 := by
  show replaceEvents ((clearPhase c (scopesToClear (sc0 :: rest)) s).2 ++ Event.wait delay :: _) = _
  rw [replaceEvents_append, replaceEvents_clearPhase]
  rfl

/-- Once the current scope is the global scope it never changes, whatever the
remaining attempts do. -/
theorem attemptLoop_global_stays {σ : Type} (c : Client σ) (declared : List CommandDefinition) :
    ∀ (fuel : Nat) (rest : List Scope) (used : Nat) (discs : Finset String) (s : σ),
    allGlobal (replaceEvents (attemptLoop c declared Scope.global rest fuel used discs s).2.1) := by
  intro fuel
  induction fuel with
  | zero => intro rest used discs s p hp; simp [attemptLoop, replaceEvents] at hp
  | succ n ih =>
      intro rest used discs s p hp
      have hfb : fallbackStep Scope.global rest (used == 0) = (Scope.global, rest) := by
        simp [fallbackStep, isGuildScope]
      rcases hr : c.replace Scope.global declared s with ⟨res, s1⟩
      rcases res with e | recs
      · rw [attemptLoop_succ_err c declared Scope.global rest n used discs s e s1 hr] at hp
        cases n with
        | zero =>
            simp only [replaceEvents, List.filterMap_cons, List.filterMap_nil] at hp
            simp only [List.mem_singleton] at hp
            subst hp; rfl
        | succ m =>
            rw [replaceEvents_cons_replace, replaceEvents_cons_backoff] at hp
            rcases List.mem_cons.mp hp with h | h
            · subst h; rfl
            · rw [hfb] at h
              exact ih rest (used + 1) discs s1 p h
      · rw [attemptLoop_succ_eq c declared Scope.global rest n used discs s recs s1 hr] at hp
        by_cases hlen : 0 < recs.length
        · simp only [hlen, if_true] at hp
          rw [replaceEvents_cons_replace] at hp
          rcases List.mem_cons.mp hp with h | h
          · subst h; rfl
          · simp [replaceEvents] at h
        · rw [if_neg hlen] at hp
          cases n with
          | zero =>
              rw [replaceEvents_cons_replace] at hp
              rcases List.mem_cons.mp hp with h | h
              · subst h; rfl
              · simp [replaceEvents] at h
          | succ m =>
              rw [replaceEvents_cons_replace, replaceEvents_cons_backoff] at hp
              rcases List.mem_cons.mp hp with h | h
              · subst h; rfl
              · rw [hfb] at h
                exact ih rest (used + 1) _ s1 p h

theorem recNames_eq_empty {recs : List CommandRecord} (h : recNames recs = ∅) : recs = [] := by
  unfold recNames at h
  rw [List.toFinset_eq_empty_iff] at h
  exact List.map_eq_nil_iff.mp h

/-- Against a contract-honouring remote, the attempt loop's final record-name
set is the declared name set (or empty when no attempt is allowed). -/
theorem honours_attemptLoop {σ : Type} (c : Client σ) (declared : List CommandDefinition)
    (hon : HonoursReplace c declared) :
    ∀ (fuel : Nat) (sc : Scope) (rest : List Scope) (used : Nat) (discs : Finset String) (s : σ),
    recNames (attemptLoop c declared sc rest fuel used discs s).1.final_records =
      if fuel = 0 then ∅ else defNames declared := by
  intro fuel
  induction fuel with
  | zero => intro sc rest used discs s; simp [attemptLoop, recNames]
  | succ n ih =>
      intro sc rest used discs s
      rcases hon sc s with ⟨recs, s2, hr, hnames⟩
      rw [attemptLoop_succ_eq c declared sc rest n used discs s recs s2 hr]
      by_cases hlen : 0 < recs.length
      · simp only [hlen, if_true]
        simp [hnames]
      · have hrecs : recs = [] := List.length_eq_zero.mp (Nat.eq_zero_of_not_pos hlen)
        have hempty : defNames declared = ∅ := by
          rw [← hnames, hrecs]; rfl
        rw [if_neg hlen]
        cases n with
        | zero =>
            simp only [Nat.succ_ne_zero, if_false]
            rw [hrecs, hempty]; rfl
        | succ m =>
            simp only [Nat.succ_ne_zero, if_false]
            rw [ih _ _ _ _ _]
            simp [Nat.succ_ne_zero, hempty]

/-- Against a contract-honouring remote, a run's final record-name set is
fully determined by the inputs, independently of the remote state. -/
theorem honours_reconcile {σ : Type} (c : Client σ) (declared : List CommandDefinition)
    (scopes : List Scope) (delay m : Nat) (s : σ) (hon : HonoursReplace c declared) :
    recNames (reconcile c declared scopes delay m s).1.final_records =
      if scopes = [] ∨ m = 0 then ∅ else defNames declared := by
  cases scopes with
  | nil => simp [reconcile, recNames]
  | cons sc0 rest =>
      show recNames (attemptLoop c declared sc0 rest m 0 ∅ _).1.final_records = _
      rw [honours_attemptLoop c declared hon]
      simp

theorem attemptLoop_attempts_le {σ : Type} (c : Client σ) (declared : List CommandDefinition) :
    ∀ (fuel : Nat) (sc : Scope) (rest : List Scope) (used : Nat) (discs : Finset String) (s : σ),
    (attemptLoop c declared sc rest fuel used discs s).1.attempts ≤ used + fuel := by
  intro fuel
  induction fuel with
  | zero => intro sc rest used discs s; simp [attemptLoop]
  | succ n ih =>
      intro sc rest used discs s
      rcases hr : c.replace sc declared s with ⟨res, s1⟩
      rcases res with e | recs
      · rw [attemptLoop_succ_err c declared sc rest n used discs s e s1 hr]
        cases n with
        | zero => simp
        | succ m =>
            calc (attemptLoop c declared _ _ (m + 1) (used + 1) discs s1).1.attempts
                ≤ (used + 1) + (m + 1) := ih _ _ _ _ _
              _ ≤ used + (m + 1 + 1) := by omega
      · rw [attemptLoop_succ_eq c declared sc rest n used discs s recs s1 hr]
        by_cases hlen : 0 < recs.length
        · simp [hlen]
        · rw [if_neg hlen]
          cases n with
          | zero => simp
          | succ m =>
              calc (attemptLoop c declared _ _ (m + 1) (used + 1) _ s1).1.attempts
                  ≤ (used + 1) + (m + 1) := ih _ _ _ _ _
                _ ≤ used + (m + 1 + 1) := by omega

/-- When every `replace` call fails, no attempt ever returns records. -/
theorem allfail_attemptLoop {σ : Type} (c : Client σ) (declared : List CommandDefinition)
    (hf : AllFailReplace c) :
    ∀ (fuel : Nat) (sc : Scope) (rest : List Scope) (used : Nat) (discs : Finset String) (s : σ),
    (attemptLoop c declared sc rest fuel used discs s).1.final_records = [] := by
  intro fuel
  induction fuel with
  | zero => intro sc rest used discs s; rfl
  | succ n ih =>
      intro sc rest used discs s
      rcases hr : c.replace sc declared s with ⟨res, s1⟩
      have hres : res = Except.error RemoteError.remoteUnavailable := by
        have h2 := hf sc declared s
        rw [hr] at h2
        exact h2
      subst hres
      rw [attemptLoop_succ_err c declared sc rest n used discs s _ s1 hr]
      cases n with
      | zero => rfl
      | succ m => exact ih _ _ _ _ _

theorem honestClient_honours : HonoursReplace honestClient [defA, defB] := by
  intro sc s
  exact ⟨[toRec defA, toRec defB], s, rfl, by decide⟩

/-! ## Claims about the reconciler -/

/-- Claim C1, amended.  For every non-empty Declaration Set, if the remote
client's `replace` honours its contract (the returned records' name set
equals the pushed declarations' name set) and a reconcile run succeeds (the
success condition of the attempt loop is reached, i.e. the final record list
is non-empty), then the name set of the final records in the resulting
SyncReport equals the declared name set.  The contract hypothesis is needed:
without it a successful run can report a name set different from the
declared one, because the success condition only requires a non-empty record
list (see the counterexample). -/
theorem c1_happy_path_sound : ∀ (σ : Type) (c : Client σ) (declared : List CommandDefinition)
    (scopes : List Scope) (delay m : Nat) (s : σ),
    declared ≠ [] → HonoursReplace c declared →
    (reconcile c declared scopes delay m s).1.final_records ≠ [] →
    recNames (reconcile c declared scopes delay m s).1.final_records = defNames declared := by
  intro σ c declared scopes delay m s hdecl hon hsucc
  have h := honours_reconcile c declared scopes delay m s hon
  by_cases hc : scopes = [] ∨ m = 0
  · rw [if_pos hc] at h
    exact absurd (recNames_eq_empty h) hsucc
  · rw [if_neg hc] at h
    exact h

/-- Claim C1, counterexample to the claim as stated: with the non-empty
Declaration Set `[defA, defB]` and a remote whose `replace` reports only the
record named `a`, the run succeeds (non-empty final records) yet the final
record-name set differs from the declared name set. -/
theorem c1_counterexample :
    (reconcile badClient [defA, defB] [Scope.global] 10 3 ()).1.final_records ≠ [] ∧
    recNames (reconcile badClient [defA, defB] [Scope.global] 10 3 ()).1.final_records ≠
      defNames [defA, defB] := by decide

/-- Claim C1, witness: a successful run against a contract-honouring remote,
with the amended theorem's hypotheses discharged at a concrete input. -/
theorem c1_witness :
    recNames (reconcile honestClient [defA, defB] [Scope.global] 10 3 ()).1.final_records =
      defNames [defA, defB] :=
  c1_happy_path_sound Unit honestClient [defA, defB] [Scope.global] 10 3 () (by decide)
    honestClient_honours (by decide)

/-- Claim C2.  `reconcile` is a total function: for every client, hence for
every pattern of `RemoteUnavailable` failures of clear/replace/fetch calls at
any point of the run, it completes with a SyncReport (no exception escapes to
the hosting process), using at most `max_attempts` attempts; and even when
every `replace` call fails, the run still completes, with the empty record
set ("no remote commands are currently live"). -/
theorem c2_no_crash_on_remote_failure : ∀ (σ : Type) (c : Client σ)
    (declared : List CommandDefinition) (scopes : List Scope) (delay m : Nat) (s : σ),
    AllFailReplace c →
    (reconcile c declared scopes delay m s).1.final_records = [] ∧
    (reconcile c declared scopes delay m s).1.attempts ≤ m := by
  intro σ c declared scopes delay m s hf
  cases scopes with
  | nil => exact ⟨rfl, Nat.zero_le m⟩
  | cons sc0 rest =>
      constructor
      · exact allfail_attemptLoop c declared hf m sc0 rest 0 ∅ _
      · have h := attemptLoop_attempts_le c declared m sc0 rest 0 ∅
          (clearPhase c (scopesToClear (sc0 :: rest)) s).1
        simpa using h

/-- Claim C2, witness: the all-failing remote at a concrete input. -/
theorem c2_witness :
    (reconcile failClient [defA, defB] [Scope.guild 5, Scope.global] 10 3 ()).1.final_records = [] ∧
    (reconcile failClient [defA, defB] [Scope.guild 5, Scope.global] 10 3 ()).1.attempts ≤ 3 :=
  c2_no_crash_on_remote_failure Unit failClient [defA, defB] [Scope.guild 5, Scope.global] 10 3 ()
    (fun _ _ _ => rfl)

/-- Claim C3.  In every reconcile run whose scope list is `[Guild g, Global]`,
if the first push attempt (against the guild scope) returns zero records,
then every later push attempt of the run targets the global scope — the
guild scope is never pushed to again. -/
theorem c3_guild_fallback_permanent : ∀ (σ : Type) (c : Client σ)
    (declared : List CommandDefinition) (g : Int) (delay m : Nat) (s : σ)
    (restEvs : List (Scope × Option (List CommandRecord))),
    replaceEvents (reconcile c declared [Scope.guild g, Scope.global] delay m s).2.1 =
      (Scope.guild g, some []) :: restEvs →
    allGlobal restEvs := by
  intro σ c declared g delay m s restEvs h
  rw [reconcile_replaceEvents] at h
  set s1 := (clearPhase c (scopesToClear [Scope.guild g, Scope.global]) s).1 with hs1
  cases m with
  | zero => simp [attemptLoop, replaceEvents] at h
  | succ n =>
      rcases hr : c.replace (Scope.guild g) declared s1 with ⟨res, s2⟩
      rcases res with e | recs
      · rw [attemptLoop_succ_err c declared (Scope.guild g) [Scope.global] n 0 ∅ s1 e s2 hr] at h
        cases n with
        | zero =>
            rw [replaceEvents_cons_replace] at h
            cases h
        | succ m2 =>
            rw [replaceEvents_cons_replace, replaceEvents_cons_backoff] at h
            cases h
      · rw [attemptLoop_succ_eq c declared (Scope.guild g) [Scope.global] n 0 ∅ s1 recs s2 hr] at h
        by_cases hlen : 0 < recs.length
        · simp only [hlen, if_true] at h
          rw [replaceEvents_cons_replace] at h
          injection h with h1 h2
          injection h1 with h1a h1b
          injection h1b with h1c
          subst h1c
          simp at hlen
        · rw [if_neg hlen] at h
          cases n with
          | zero =>
              rw [replaceEvents_cons_replace] at h
              injection h with h1 h2
              rw [← h2]
              intro p hp
              simp [replaceEvents] at hp
          | succ m2 =>
              rw [replaceEvents_cons_replace, replaceEvents_cons_backoff] at h
              injection h with h1 h2
              have hfb : fallbackStep (Scope.guild g) [Scope.global] ((0 : Nat) == 0) =
                  (Scope.global, []) := by
                simp [fallbackStep, isGuildScope]
              rw [hfb] at h2
              rw [← h2]
              exact attemptLoop_global_stays c declared (m2 + 1) [] 1 _ s2

/-- Claim C3, witness: a run whose first guild attempt returns zero records
and whose remaining attempt targets the global scope. -/
theorem c3_witness :
    allGlobal [(Scope.global, some [recA])] :=
  c3_guild_fallback_permanent Nat stepClient [defA, defB] 5 10 3 0
    [(Scope.global, some [recA])] (by decide)

/-- Claim C4.  For every input (declared set, scope list, delay,
max_attempts) and every remote client, a reconcile run performs at most
`max_attempts` invocations of `replace` (push attempts), regardless of how
many scopes the scope list contains. -/
theorem c4_attempt_bound : ∀ (σ : Type) (c : Client σ) (declared : List CommandDefinition)
    (scopes : List Scope) (delay m : Nat) (s : σ),
    countReplace (reconcile c declared scopes delay m s).2.1 ≤ m := by
  intro σ c declared scopes delay m s
  cases scopes with
  | nil =>
      show countReplace ((clearPhase c (scopesToClear []) s).2 ++ [Event.wait delay]) ≤ m
      unfold countReplace
      rw [replaceEvents_append, replaceEvents_clearPhase]
      simp [replaceEvents]
  | cons sc0 rest =>
      unfold countReplace
      rw [reconcile_replaceEvents]
      exact attemptLoop_countReplace_le c declared m sc0 rest 0 ∅ _

/-- Claim C5.  Every reconcile run's event trace is the clear phase, then the
propagation wait, then the attempt phase: every push attempt comes after the
wait, and for each scope that receives a push a clear call to that scope was
made (or at least attempted) in the clear phase before the wait. -/
theorem c5_clear_before_push : ∀ (σ : Type) (c : Client σ) (declared : List CommandDefinition)
    (scopes : List Scope) (delay m : Nat) (s : σ),
    ∃ ct atr,
      (reconcile c declared scopes delay m s).2.1 = ct ++ Event.wait delay :: atr ∧
      (∀ e ∈ ct, ∃ sc ok, e = Event.clearCall sc ok) ∧
      (∀ sc r, Event.replaceCall sc r ∈ atr → ∃ ok, Event.clearCall sc ok ∈ ct) := by
  intro σ c declared scopes delay m s
  cases scopes with
  | nil =>
      refine ⟨(clearPhase c (scopesToClear []) s).2, [], rfl, ?_, ?_⟩
      · exact fun e he => clearPhase_events_clear c _ _ e he
      · intro sc r h; simp at h
  | cons sc0 rest =>
      refine ⟨(clearPhase c (scopesToClear (sc0 :: rest)) s).2,
        (attemptLoop c declared sc0 rest m 0 ∅ (clearPhase c (scopesToClear (sc0 :: rest)) s).1).2.1,
        rfl, ?_, ?_⟩
      · exact fun e he => clearPhase_events_clear c _ _ e he
      · intro sc r h
        have hmem : sc = sc0 ∨ sc ∈ rest := attemptLoop_push_scopes c declared _ _ _ _ _ _ _ _ h
        have hsc : sc ∈ sc0 :: rest := by
          rcases hmem with h2 | h2
          · exact h2 ▸ List.mem_cons_self _ _
          · exact List.mem_cons_of_mem _ h2
        exact clearPhase_covers c _ _ sc (mem_scopesToClear _ _ (Or.inl hsc))

/-- Claim C6.  The Scope Resolver returns `[Guild g, Global]` when a guild id
`g` is configured and `[Global]` when none is; it is a pure total function
(no errors, no side effects). -/
theorem c6_scope_resolver : ∀ g : Int,
    resolveScopes (some g) = [Scope.guild g, Scope.global] ∧
    resolveScopes none = [Scope.global] :=
  fun g => ⟨rfl, rfl⟩

/-- Claim C7, amended.  If the first `replace` call of a reconcile run
returns a non-empty record set whose name set is the declared name set minus
exactly one declared name, the resulting SyncReport's discrepancy set is
exactly that missing name.  The restriction to the first call is needed: the
spec's verify step (§4.2 step 3b) records discrepancies on every attempt,
and an earlier zero-record attempt already contributes every declared name
to the set (see the counterexample). -/
theorem c7_discrepancy_detection : ∀ (σ : Type) (c : Client σ)
    (declared : List CommandDefinition) (scopes : List Scope) (delay m : Nat) (s : σ)
    (sc : Scope) (recs : List CommandRecord) (x : String)
    (restEvs : List (Scope × Option (List CommandRecord))),
    replaceEvents (reconcile c declared scopes delay m s).2.1 = (sc, some recs) :: restEvs →
    recs ≠ [] →
    recNames recs = defNames declared \ {x} →
    x ∈ defNames declared →
    (reconcile c declared scopes delay m s).1.discrepancies = {x} := by
  intro σ c declared scopes delay m s sc recs x restEvs h hne hmiss hx
  cases scopes with
  | nil =>
      rw [show (reconcile c declared [] delay m s).2.1 =
        (clearPhase c (scopesToClear []) s).2 ++ [Event.wait delay] from rfl,
        replaceEvents_append, replaceEvents_clearPhase] at h
      simp [replaceEvents] at h
  | cons sc0 rest =>
      rw [reconcile_replaceEvents] at h
      set s1 := (clearPhase c (scopesToClear (sc0 :: rest)) s).1 with hs1
      show (attemptLoop c declared sc0 rest m 0 ∅ s1).1.discrepancies = {x}
      cases m with
      | zero => simp [attemptLoop, replaceEvents] at h
      | succ n =>
          rcases hr : c.replace sc0 declared s1 with ⟨res, s2⟩
          rcases res with e | recs0
          · rw [attemptLoop_succ_err c declared sc0 rest n 0 ∅ s1 e s2 hr] at h ⊢
            cases n with
            | zero => rw [replaceEvents_cons_replace] at h; cases h
            | succ m2 =>
                rw [replaceEvents_cons_replace, replaceEvents_cons_backoff] at h
                injection h with h1 h2
                injection h1 with h1a h1b
                cases h1b
          · rw [attemptLoop_succ_eq c declared sc0 rest n 0 ∅ s1 recs0 s2 hr] at h ⊢
            by_cases hlen : 0 < recs0.length
            · simp only [hlen, if_true] at h ⊢
              rw [replaceEvents_cons_replace] at h
              injection h with h1 h2
              injection h1 with h1a h1b
              injection h1b with h1c
              subst h1c
              have hcond : defNames declared ≠ ∅ ∧ defNames declared ≠ recNames recs0 := by
                constructor
                · intro hemp; rw [hemp] at hx; exact absurd hx (Finset.not_mem_empty x)
                · intro heq
                  have hxr : x ∈ recNames recs0 := heq ▸ hx
                  rw [hmiss] at hxr
                  exact absurd hxr (by simp)
              rw [if_pos hcond]
              rw [hmiss]
              unfold nameDiff
              rw [Finset.sdiff_sdiff_self_left,
                Finset.inter_singleton_of_mem hx]
              rw [Finset.sdiff_eq_empty_iff_subset.mpr Finset.sdiff_subset]
              simp
            · have hrecs0 : recs0 = [] := List.length_eq_zero.mp (Nat.eq_zero_of_not_pos hlen)
              rw [if_neg hlen] at h
              cases n with
              | zero =>
                  rw [replaceEvents_cons_replace] at h
                  injection h with h1 h2
                  injection h1 with h1a h1b
                  injection h1b with h1c
                  rw [hrecs0] at h1c
                  exact absurd h1c.symm hne
              | succ m2 =>
                  rw [replaceEvents_cons_replace, replaceEvents_cons_backoff] at h
                  injection h with h1 h2
                  injection h1 with h1a h1b
                  injection h1b with h1c
                  rw [hrecs0] at h1c
                  exact absurd h1c.symm hne

/-- Claim C7, counterexample to the claim as stated: with declared set
`[defA, defB]`, the second replace call of the run returns a record set
missing exactly the name `b`, yet the report's discrepancy set is not
`{b}` — the failed first attempt (zero records) already recorded both
declared names. -/
theorem c7_counterexample :
    replaceEvents (reconcile stepClient [defA, defB] [Scope.global] 10 3 0).2.1 =
      [(Scope.global, some []), (Scope.global, some [recA])] ∧
    recNames [recA] = defNames [defA, defB] \ {"b"} ∧
    ("b" : String) ∈ defNames [defA, defB] ∧
    ([recA] : List CommandRecord) ≠ [] ∧
    (reconcile stepClient [defA, defB] [Scope.global] 10 3 0).1.discrepancies ≠ {"b"} := by
  decide

/-- Claim C7, witness: a run whose first replace call returns the record set
missing exactly the name `b`; the discrepancy set is exactly `{b}`. -/
theorem c7_witness :
    (reconcile badClient [defA, defB] [Scope.global] 10 1 ()).1.discrepancies = {"b"} :=
  c7_discrepancy_detection Unit badClient [defA, defB] [Scope.global] 10 1 () Scope.global
    [recA] "b" [] (by decide) (by decide) (by decide) (by decide)

/-- Claim C8.  Running `reconcile` twice in succession (the second run
starting from the remote state the first run left behind) with the same
unchanged Declaration Set, against a remote honouring the `replace`
contract, yields the same final record-name set in both runs' reports. -/
theorem c8_idempotent_name_set : ∀ (σ : Type) (c : Client σ)
    (declared : List CommandDefinition) (scopes : List Scope) (delay m : Nat) (s : σ),
    HonoursReplace c declared →
    recNames (reconcile c declared scopes delay m s).1.final_records =
      recNames (reconcile c declared scopes delay m
        ((reconcile c declared scopes delay m s).2.2)).1.final_records := by
  intro σ c declared scopes delay m s hon
  rw [honours_reconcile c declared scopes delay m s hon,
    honours_reconcile c declared scopes delay m _ hon]

/-- Claim C8, witness: two successive runs against a contract-honouring
remote at a concrete input. -/
theorem c8_witness :
    recNames (reconcile honestClient [defA, defB] [Scope.global] 10 3 ()).1.final_records =
      recNames (reconcile honestClient [defA, defB] [Scope.global] 10 3
        ((reconcile honestClient [defA, defB] [Scope.global] 10 3 ()).2.2)).1.final_records :=
  c8_idempotent_name_set Unit honestClient [defA, defB] [Scope.global] 10 3 ()
    honestClient_honours

/-! ## Claim about the startup sync (src/main.py lines 246-248) -/

/-- Claim C9.  `setup_hook` makes exactly one remote call — a single sync
with no guild argument (a global sync) — performs no clear call and no wait
(so also no retry, no fallback and no verification), and its only report is
printing the count of records the single call returned. -/
theorem c9_setup_hook_single_global_sync : ∀ (σ : Type) (tree : TreeClient σ) (s : σ),
    (setup_hook tree s).2 =
      [BotEvent.syncCall none,
       BotEvent.printLine ("✅ Synced " ++ toString (tree.sync none s).1.length
         ++ " commands globally.")] ∧
    ((setup_hook tree s).2.filter isSyncEvent).length = 1 ∧
    (∀ g, BotEvent.syncCall g ∈ (setup_hook tree s).2 → g = none) ∧
    (∀ e ∈ (setup_hook tree s).2, isClearOrWaitEvent e = false) := by
  intro σ tree s
  refine ⟨rfl, rfl, ?_, ?_⟩
  · intro g hg
    simp only [setup_hook, List.mem_cons, List.not_mem_nil, or_false] at hg
    simpa using hg
  · intro e he
    simp only [setup_hook, List.mem_cons, List.not_mem_nil, or_false] at he
    rcases he with h | h
    · subst h; rfl
    · subst h; rfl

/-! ## Helper lemmas about the dice roller -/

theorem isDig_spec (c : Char) (h : isDig c = true) :
    c.isWhitespace = false ∧ (c == '+') = false ∧ (c == '-') = false ∧
    (c = '+') = False ∧ c ≠ ' ' := by
  have hc : c = '0' ∨ c = '1' ∨ c = '2' ∨ c = '3' ∨ c = '4' ∨
      c = '5' ∨ c = '6' ∨ c = '7' ∨ c = '8' ∨ c = '9' := by
    simp only [isDig, Bool.or_eq_true, beq_iff_eq] at h
    tauto
  rcases hc with rfl | rfl | rfl | rfl | rfl | rfl | rfl | rfl | rfl | rfl <;>
    exact ⟨rfl, rfl, rfl, by simp, by decide⟩

theorem takeWhile_all {p : Char → Bool} :
    ∀ (l : List Char), (∀ c ∈ l, p c = true) → l.takeWhile p = l := by
  intro l
  induction l with
  | nil => intro _; rfl
  | cons c tl ih =>
      intro h
      have h1 := h c (List.mem_cons_self _ _)
      have h2 := ih (fun x hx => h x (List.mem_cons_of_mem _ hx))
      simp [List.takeWhile_cons, h1, h2]

theorem dropWhile_all {p : Char → Bool} :
    ∀ (l : List Char), (∀ c ∈ l, p c = true) → l.dropWhile p = [] := by
  intro l
  induction l with
  | nil => intro _; rfl
  | cons c tl ih =>
      intro h
      have h1 := h c (List.mem_cons_self _ _)
      have h2 := ih (fun x hx => h x (List.mem_cons_of_mem _ hx))
      simp [List.dropWhile_cons, h1, h2]

theorem takeWhile_all_append {p : Char → Bool} :
    ∀ (l1 l2 : List Char), (∀ c ∈ l1, p c = true) →
      (l1 ++ l2).takeWhile p = l1 ++ l2.takeWhile p := by
  intro l1 l2
  induction l1 with
  | nil => intro _; rfl
  | cons c tl ih =>
      intro h
      have h1 := h c (List.mem_cons_self _ _)
      have h2 := ih (fun x hx => h x (List.mem_cons_of_mem _ hx))
      simp [List.cons_append, List.takeWhile_cons, h1, h2]

theorem dropWhile_all_append {p : Char → Bool} :
    ∀ (l1 l2 : List Char), (∀ c ∈ l1, p c = true) →
      (l1 ++ l2).dropWhile p = l2.dropWhile p := by
  intro l1 l2
  induction l1 with
  | nil => intro _; rfl
  | cons c tl ih =>
      intro h
      have h1 := h c (List.mem_cons_self _ _)
      have h2 := ih (fun x hx => h x (List.mem_cons_of_mem _ hx))
      simp [List.cons_append, List.dropWhile_cons, h1, h2]

theorem takeWhile_cons_false {p : Char → Bool} (c : Char) (l : List Char) (h : p c = false) :
    (c :: l).takeWhile p = [] := by
  simp [List.takeWhile_cons, h]

theorem dropWhile_cons_false {p : Char → Bool} (c : Char) (l : List Char) (h : p c = false) :
    (c :: l).dropWhile p = c :: l := by
  simp [List.dropWhile_cons, h]

theorem dropWhile_all_false {p : Char → Bool} :
    ∀ (l : List Char), (∀ c ∈ l, p c = false) → l.dropWhile p = l := by
  intro l h
  cases l with
  | nil => rfl
  | cons c tl => exact dropWhile_cons_false c tl (h c (List.mem_cons_self _ _))

theorem pyStrip_eq_self (l : List Char) (h : ∀ c ∈ l, c.isWhitespace = false) :
    pyStrip l = l := by
  unfold pyStrip
  rw [dropWhile_all_false l h]
  rw [dropWhile_all_false l.reverse (fun c hc => h c (List.mem_reverse.mp hc))]
  exact List.reverse_reverse l

theorem cleanExpr_eq_self (l : List Char) (h : ∀ c ∈ l, c.isWhitespace = false ∧ c ≠ ' ') :
    cleanExpr l = l := by
  unfold cleanExpr
  rw [pyStrip_eq_self l (fun c hc => (h c hc).1)]
  exact List.filter_eq_self.mpr (fun c hc => by simpa using (h c hc).2)

/-- Splitting a `'+'`-free string produces a single token. -/
theorem splitPlusAux_no_plus :
    ∀ (l : List Char) (cur : List Char), (∀ c ∈ l, (c == '+') = false) →
      splitPlusAux cur l = [cur.reverse ++ l] := by
  intro l
  induction l with
  | nil => intro cur _; simp [splitPlusAux]
  | cons c tl ih =>
      intro cur h
      have h1 := h c (List.mem_cons_self _ _)
      rw [splitPlusAux, if_neg (by simp [h1])]
      rw [ih (c :: cur) (fun x hx => h x (List.mem_cons_of_mem _ hx))]
      simp

/-- Splitting stops a token exactly at the next `'+'`. -/
theorem splitPlusAux_plus_split :
    ∀ (l : List Char) (cur : List Char) (rest : List Char),
      (∀ c ∈ l, (c == '+') = false) →
      splitPlusAux cur (l ++ '+' :: rest) =
        (cur.reverse ++ l) :: splitPlusAux ['+'] rest := by
  intro l
  induction l with
  | nil =>
      intro cur rest _
      rw [List.nil_append, splitPlusAux, if_pos (by rfl)]
      simp
  | cons c tl ih =>
      intro cur rest h
      have h1 := h c (List.mem_cons_self _ _)
      rw [List.cons_append, splitPlusAux, if_neg (by simp [h1])]
      rw [ih (c :: cur) rest (fun x hx => h x (List.mem_cons_of_mem _ hx))]
      simp

/-- `DICE_RE` on a token of the shape digits-`d`-digits. -/
theorem diceMatch_nds (ns ss : List Char)
    (hns : ∀ c ∈ ns, isDig c = true) (hss0 : ss ≠ []) (hss : ∀ c ∈ ss, isDig c = true) :
    diceMatch (ns ++ 'd' :: ss) =
      some (if ns.isEmpty then 1 else digitsVal ns, digitsVal ss, 0) := by
  unfold diceMatch
  rw [takeWhile_all_append ns ('d' :: ss) hns,
    dropWhile_all_append ns ('d' :: ss) hns]
  rw [takeWhile_cons_false 'd' ss (by decide), dropWhile_cons_false 'd' ss (by decide)]
  simp [takeWhile_all ss hss, dropWhile_all ss hss, List.isEmpty_iff, hss0]

/-- `DICE_RE` rejects a pure digit token (there is no `d`). -/
theorem diceMatch_digits (ks : List Char) (hks0 : ks ≠ []) (hks : ∀ c ∈ ks, isDig c = true) :
    diceMatch ks = none := by
  unfold diceMatch
  rw [takeWhile_all ks hks, dropWhile_all ks hks]

/-- Python `int` on a pure digit token. -/
theorem pyInt_digits (ks : List Char) (hks0 : ks ≠ []) (hks : ∀ c ∈ ks, isDig c = true) :
    pyInt ks = some ((digitsVal ks : Int)) := by
  unfold pyInt
  rw [pyStrip_eq_self ks (fun c hc => (isDig_spec c (hks c hc)).1)]
  cases ks with
  | nil => exact absurd rfl hks0
  | cons c rest =>
      have hc := hks c (List.mem_cons_self _ _)
      have hall : (c :: rest).all isDig = true := List.all_eq_true.mpr hks
      simp [(isDig_spec c hc).2.1, (isDig_spec c hc).2.2.1, hall]

/-- `count` rolls of a die with `sides ≥ 1` faces sum to something between
`count` and `count * sides`. -/
theorem doRolls_len_bounds (rng : Nat → Nat → Nat) (hrng : ValidRng rng) (sides : Nat)
    (hS : 1 ≤ sides) :
    ∀ (count idx : Nat),
      count ≤ (doRolls rng idx count sides).1.sum ∧
      (doRolls rng idx count sides).1.sum ≤ count * sides := by
  intro count
  induction count with
  | zero => intro idx; simp [doRolls]
  | succ n ih =>
      intro idx
      have h1 := hrng idx sides hS
      have h2 := ih (idx + 1)
      simp only [doRolls, List.sum_cons]
      constructor
      · omega
      · have h3 : (n + 1) * sides = sides + n * sides := by ring
        omega

/-! ## Claim about the dice roller (src/main.py lines 70-104) -/

/-- Claim C10.  For every dice term of the form `NdS+k` accepted by
`DICE_RE` — digit strings `ns`, `ss`, `ks` denoting `N ≥ 1`, `S ≥ 1` and
`k` — and for every outcome of the random rolls, `roll_expr` returns (it
never raises on such input) a total `t` with `N + k ≤ t ≤ N*S + k`; and
`roll_expr` on the empty expression returns total 0. -/
theorem c10_dice_bounds (rng : Nat → Nat → Nat) (ns ss ks : List Char)
    (hns0 : ns ≠ []) (hns : ∀ c ∈ ns, isDig c = true)
    (hss0 : ss ≠ []) (hss : ∀ c ∈ ss, isDig c = true)
    (hks0 : ks ≠ []) (hks : ∀ c ∈ ks, isDig c = true)
    (hN : 1 ≤ digitsVal ns) (hS : 1 ≤ digitsVal ss) (hrng : ValidRng rng) :
    exceptOk (roll_expr rng (String.mk (ns ++ 'd' :: ss ++ '+' :: ks))) = true ∧
    (digitsVal ns : Int) + (digitsVal ks : Int) ≤
      resTotal (roll_expr rng (String.mk (ns ++ 'd' :: ss ++ '+' :: ks))) ∧
    resTotal (roll_expr rng (String.mk (ns ++ 'd' :: ss ++ '+' :: ks))) ≤
      (digitsVal ns : Int) * (digitsVal ss : Int) + (digitsVal ks : Int) ∧
    roll_expr rng "" = Except.ok ⟨0, "0"⟩ := by
  set L : List Char := ns ++ 'd' :: ss ++ '+' :: ks with hL
  have hmem : ∀ c ∈ L, c ∈ ns ∨ c = 'd' ∨ c ∈ ss ∨ c = '+' ∨ c ∈ ks := by
    intro c hc
    rw [hL] at hc
    simp only [List.mem_append, List.mem_cons] at hc
    tauto
  have hnws : ∀ c ∈ L, c.isWhitespace = false ∧ c ≠ ' ' := by
    intro c hc
    rcases hmem c hc with h | h | h | h | h
    · exact ⟨(isDig_spec c (hns c h)).1, (isDig_spec c (hns c h)).2.2.2.2⟩
    · subst h; exact ⟨rfl, by decide⟩
    · exact ⟨(isDig_spec c (hss c h)).1, (isDig_spec c (hss c h)).2.2.2.2⟩
    · subst h; exact ⟨rfl, by decide⟩
    · exact ⟨(isDig_spec c (hks c h)).1, (isDig_spec c (hks c h)).2.2.2.2⟩
  have hnplus : ∀ c ∈ ns ++ 'd' :: ss, (c == '+') = false := by
    intro c hc
    simp only [List.mem_append, List.mem_cons] at hc
    rcases hc with h | h | h
    · exact (isDig_spec c (hns c h)).2.1
    · subst h; decide
    · exact (isDig_spec c (hss c h)).2.1
  have hclean : cleanExpr L = L := cleanExpr_eq_self L hnws
  have hLne : L.isEmpty = false := by
    rw [hL]
    cases ns <;> simp
  have htokens : splitPlusAux [] ('+' :: L) = [[], '+' :: (ns ++ 'd' :: ss), '+' :: ks] := by
    rw [splitPlusAux, if_pos (by decide)]
    rw [hL, show ns ++ 'd' :: ss ++ '+' :: ks = (ns ++ 'd' :: ss) ++ '+' :: ks by simp]
    rw [splitPlusAux_plus_split (ns ++ 'd' :: ss) ['+'] ks hnplus]
    rw [splitPlusAux_no_plus ks ['+'] (fun c hc => (isDig_spec c (hks c hc)).2.1)]
    rfl
  have hd1 : ('+' :: (ns ++ 'd' :: ss)).dropWhile (fun c => c == '+') = ns ++ 'd' :: ss := by
    rw [List.dropWhile_cons]
    simp only [beq_self_eq_true, if_true]
    exact dropWhile_all_false _ hnplus
  have hd2 : ('+' :: ks).dropWhile (fun c => c == '+') = ks := by
    rw [List.dropWhile_cons]
    simp only [beq_self_eq_true, if_true]
    exact dropWhile_all_false _ (fun c hc => (isDig_spec c (hks c hc)).2.1)
  have hnsE : ns.isEmpty = false := by
    cases ns with
    | nil => exact absurd rfl hns0
    | cons a b => rfl
  have hdice : diceMatch (ns ++ 'd' :: ss) = some (digitsVal ns, digitsVal ss, 0) := by
    rw [diceMatch_nds ns ss hns hss0 hss, hnsE]
    rfl
  have hnodice : diceMatch ks = none := diceMatch_digits ks hks0 hks
  have hint : pyInt ks = some ((digitsVal ks : Int)) := pyInt_digits ks hks0 hks
  have hcond : ¬(0 < digitsVal ns ∧ digitsVal ss = 0) := by omega
  have hsum := doRolls_len_bounds rng hrng (digitsVal ss) hS (digitsVal ns) 0
  have hkey : roll_expr rng (String.mk L) =
      Except.ok ⟨((doRolls rng 0 (digitsVal ns) (digitsVal ss)).1.sum : Int) + (digitsVal ks : Int),
        String.intercalate " + "
          [diceLabel (digitsVal ns) (digitsVal ss) ++ "=" ++
             showRolls (doRolls rng 0 (digitsVal ns) (digitsVal ss)).1 ++ modTxt 0 ++ " → " ++
             toString (((doRolls rng 0 (digitsVal ns) (digitsVal ss)).1.sum : Int) + 0),
           toString ((digitsVal ks : Int))]⟩ := by
    show roll_expr rng (String.mk L) = _
    simp only [roll_expr]
    rw [hclean, hLne]
    simp only [Bool.false_eq_true, if_false, htokens]
    simp [processTokens, hd1, hd2, hdice, hnodice, hint, hcond]
  refine ⟨?_, ?_, ?_, rfl⟩
  · rw [hkey]; rfl
  · rw [hkey]
    simp only [resTotal]
    have h1 := hsum.1
    omega
  · rw [hkey]
    simp only [resTotal]
    have h2 : ((doRolls rng 0 (digitsVal ns) (digitsVal ss)).1.sum : Int) ≤
        (digitsVal ns : Int) * (digitsVal ss : Int) := by exact_mod_cast hsum.2
    linarith

/-- Claim C10, witness: the term `2d6+3` with a die that always rolls 1. -/
theorem c10_witness :
    exceptOk (roll_expr rngOne (String.mk (['2'] ++ 'd' :: ['6'] ++ '+' :: ['3']))) = true ∧
    (2 : Int) + (3 : Int) ≤
      resTotal (roll_expr rngOne (String.mk (['2'] ++ 'd' :: ['6'] ++ '+' :: ['3']))) ∧
    resTotal (roll_expr rngOne (String.mk (['2'] ++ 'd' :: ['6'] ++ '+' :: ['3']))) ≤
      (2 : Int) * (6 : Int) + (3 : Int) ∧
    roll_expr rngOne "" = Except.ok ⟨0, "0"⟩ :=
  c10_dice_bounds rngOne ['2'] ['6'] ['3'] (by decide) (by decide) (by decide) (by decide)
    (by decide) (by decide) (by decide) (by decide) (fun i s hs => ⟨Nat.le_refl 1, hs⟩)
